import Mathlib

/-!
Shallow embedding of the placement environment implemented in
src/colorenv/colorenv.py (class ColorEnv), together with proofs about its
step/reset state machine, its legality checker and its bookkeeping
invariants.

Modelling notes:
* numpy state arrays become functions from coordinates to Nat; the two
  layers state[:,:,0] (board) and state[:,:,1] (placement marker) become
  the two fields board and marker.
* the Free-Location Pool is a list in both placement modes.  In ordered
  mode python pops index 0 of a row-major list, which the embedding mirrors
  exactly.  In random mode python draws an arbitrary element of a set;
  the embedding draws the element at index k % length of the row-major
  list, where k is an explicit oracle argument, so quantifying over k
  covers every element the python draw could return.
* python asserts / crashes (drawing from an empty pool) become Option:
  none models the fatal fault, some a normal return.
* actions are Int, matching an arbitrary integer agent action.
-/

namespace ColorEnvSpec

/-- State of the environment: configuration fields read from the config
file in ColorEnv.__init__, plus the mutable fields of the python object
(state array split into its two layers, free_coords, current_loc,
counter, done). -/
structure ColorEnv where
  n : Nat
  num_colors : Nat
  maximize_red : Bool
  ordered_placement : Bool
  disable_checking : Bool
  flatten : Bool
  board : Nat × Nat → Nat
  marker : Nat × Nat → Nat
  free_coords : List (Nat × Nat)
  current_loc : Nat × Nat
  counter : Nat
  done : Bool

/-- Row-major list of all cells of the n x n grid: the collection built by
the nested loops of ColorEnv._new_free_coords (for i in range(n): for j in
range(n): append/add (i,j)). -/
def coordList (n : Nat) : List (Nat × Nat) :=
  List.range n ×ˢ List.range n

/-- Pointwise update of one cell of a grid layer, modelling a numpy
assignment state[c0, c1, layer] = v. -/
def setCell (g : Nat × Nat → Nat) (c : Nat × Nat) (v : Nat) : Nat × Nat → Nat :=
  fun d => if d = c then v else g d

/-- ColorEnv._num_nonzero restricted to one n x n layer: the number of
grid cells holding a nonzero value. -/
def num_nonzero (n : Nat) (g : Nat × Nat → Nat) : Nat :=
  ((coordList n).filter fun c => g c != 0).length

/-- ColorEnv._new_free_coords: repopulate the pool with every coordinate
of the grid (row-major order; in random mode python uses a set, modelled
here by the arbitrary-index draw in first_location / get_next_location). -/
def new_free_coords (e : ColorEnv) : ColorEnv :=
  { e with free_coords := coordList e.n }

/-- Pool index used by a draw: python pops index 0 of the list in ordered
mode; in random mode random.choice returns an arbitrary set element,
modelled by the index k % length picked by the oracle argument k. -/
def drawIdx (e : ColorEnv) (k : Nat) : Nat :=
  if e.ordered_placement then 0 else k % e.free_coords.length

/-- ColorEnv._first_location: draw a coordinate from the pool, store it in
current_loc and remove it from the pool.  none models the python crash on
an empty pool.  Note the marker layer is NOT written here; __init__ writes
it afterwards, reset does not. -/
def first_location (e : ColorEnv) (k : Nat) : Option ColorEnv :=
  match e.free_coords[drawIdx e k]? with
  | none => none
  | some loc =>
      some { e with current_loc := loc,
                    free_coords := e.free_coords.eraseIdx (drawIdx e k) }

/-- ColorEnv._get_next_location: assert the pool is nonempty (none models
the assertion failing), draw a coordinate the same way as first_location,
zero the marker at the old current_loc, set it at the new one. -/
def get_next_location (e : ColorEnv) (k : Nat) : Option ColorEnv :=
  if e.free_coords.length = 0 then none
  else
    match e.free_coords[drawIdx e k]? with
    | none => none
    | some loc =>
        some { e with
          marker := setCell (setCell e.marker e.current_loc 0) loc 1,
          current_loc := loc,
          free_coords := e.free_coords.eraseIdx (drawIdx e k) }

/-- ColorEnv._check_legal_board: if disable_checking, true.  Otherwise
scan every cell except the last row and column against its below and
right neighbors, then check the bottom-right corner against its two
neighbors; false on any equal pair found, true otherwise.  (The python
early returns inside the loops are the short-circuit of List.all.) -/
def check_legal_board (e : ColorEnv) : Bool :=
  if e.disable_checking then true
  else
    ((List.range (e.n - 1)).all fun i =>
      (List.range (e.n - 1)).all fun j =>
        !(e.board (i, j) == e.board (i + 1, j) || e.board (i, j) == e.board (i, j + 1)))
    &&
    !(e.board (e.n - 1, e.n - 1) == e.board (e.n - 2, e.n - 1)
      || e.board (e.n - 1, e.n - 1) == e.board (e.n - 1, e.n - 2))

/-- ColorEnv.step: shift the raw action by +1; out-of-range shifted action
returns the state unchanged with reward -1; a step on a finished game
returns the state unchanged with reward 0; otherwise color the current
target cell, increment the counter, and either finish the episode (clear
the marker, run the legality check, override the reward) or draw the next
target location.  The returned triple is (new state, reward, done); the
observation returned by python is the agent view of the returned state.
none models the _get_next_location assertion failure. -/
def step (e : ColorEnv) (action : Int) (k : Nat) : Option (ColorEnv × Int × Bool) :=
  let a := action + 1
  if a > (e.num_colors : Int) ∨ a ≤ 0 then
    some (e, -1, e.done)
  else if e.done then
    some (e, 0, e.done)
  else
    let e1 : ColorEnv :=
      { e with counter := e.counter + 1,
               board := setCell e.board e.current_loc a.toNat }
    let reward : Int := if e.maximize_red = true ∧ a = 1 then 1 else 0
    if e1.counter = e.n ^ 2 then
      let e2 : ColorEnv :=
        { e1 with done := true, marker := setCell e1.marker e1.current_loc 0 }
      some (e2, if check_legal_board e2 then 1 else if e.maximize_red then -100 else 0, true)
    else
      match get_next_location e1 k with
      | none => none
      | some e2 => some (e2, reward, e2.done)

/-- ColorEnv.reset: repopulate the pool, zero both state layers, zero the
counter, clear the done flag, draw a fresh current target.  Faithfully to
the source, the marker layer is NOT set at the fresh target (only
__init__ does that). -/
def reset (e : ColorEnv) (k : Nat) : Option ColorEnv :=
  first_location
    { (new_free_coords e) with
      board := fun _ => 0, marker := fun _ => 0, counter := 0, done := false }
    k

/-- ColorEnv.__init__ after the config file has been read: fresh pool,
zero state, zero counter, done false, first location drawn, and the
marker set to 1 at the drawn location (line 57 of the source). -/
def initEnv (n num_colors : Nat) (maximize_red ordered_placement disable_checking fl : Bool)
    (k : Nat) : Option ColorEnv :=
  let e0 : ColorEnv :=
    { n := n, num_colors := num_colors, maximize_red := maximize_red,
      ordered_placement := ordered_placement, disable_checking := disable_checking,
      flatten := fl,
      board := fun _ => 0, marker := fun _ => 0,
      free_coords := coordList n, current_loc := (0, 0),
      counter := 0, done := false }
  (first_location e0 k).map fun e1 =>
    { e1 with marker := setCell e1.marker e1.current_loc 1 }

/-- Entry values of the observation ColorEnv._get_state_agent_view
returns, in the order numpy flatten produces for the (n, n, 2) state
array: board then marker value of each cell, cells in row-major order.
When flatten is false the same values are returned in nested shape, so
this list is the multiset of observation entries in either mode. -/
def obsEntries (e : ColorEnv) : List Nat :=
  (coordList e.n).flatMap fun c => [e.board c, e.marker c]

/-- Run a list of (action, draw-oracle) pairs through step, threading the
state; none as soon as one step hits the internal assertion. -/
def runActs (e : ColorEnv) (acts : List (Int × Nat)) : Option ColorEnv :=
  match acts with
  | [] => some e
  | (a, k) :: rest =>
      match step e a k with
      | none => none
      | some (e1, _, _) => runActs e1 rest

/-- Run a list of (action, draw-oracle) pairs through step, recording the
current target coordinate at the moment each action is taken. -/
def runTrace (e : ColorEnv) (acts : List (Int × Nat)) : Option (List (Nat × Nat)) :=
  match acts with
  | [] => some []
  | (a, k) :: rest =>
      match step e a k with
      | none => none
      | some (e1, _, _) => (runTrace e1 rest).map fun t => e.current_loc :: t

/-- States reachable through the public interface: a freshly constructed
environment, or any number of step and reset calls after that. -/
inductive Reachable : ColorEnv → Prop where
  | from_init (n nc : Nat) (mr op dc fl : Bool) (k : Nat) (e : ColorEnv) :
      initEnv n nc mr op dc fl k = some e → Reachable e
  | from_step (e : ColorEnv) (a : Int) (k : Nat) (e1 : ColorEnv) (r : Int) (d : Bool) :
      Reachable e → step e a k = some (e1, r, d) → Reachable e1
  | from_reset (e : ColorEnv) (k : Nat) (e1 : ColorEnv) :
      Reachable e → reset e k = some e1 → Reachable e1

/-- Spec-side notion, written from the claim wording and to be compared
with check_legal_board: some two 4-adjacent cells of the grid (sharing a
row edge or a column edge) hold the same color.  Enumerating each cell
with its right and below neighbor covers every adjacent pair exactly
once. -/
def specHasAdjacentSamePair (n : Nat) (b : Nat × Nat → Nat) : Bool :=
  (coordList n).any fun c =>
    (decide (c.1 + 1 < n) && (b c == b (c.1 + 1, c.2))) ||
    (decide (c.2 + 1 < n) && (b c == b (c.1, c.2 + 1)))

/-- Environment state as produced by construction or by reset: the start
of an episode. -/
def Fresh (e : ColorEnv) : Prop :=
  (∃ n nc mr op dc fl k, initEnv n nc mr op dc fl k = some e) ∨
  (∃ e0 k, reset e0 k = some e)

/-- Start of an episode of an environment in deterministic placement
mode. -/
def FreshOrdered (e : ColorEnv) : Prop :=
  Fresh e ∧ e.ordered_placement = true

/-- Mid-episode shape of an ordered-mode environment: m cells placed, the
current target is cell m of the row-major enumeration, and the pool holds
exactly the cells after it. -/
def OrderedAt (e : ColorEnv) (m : Nat) : Prop :=
  e.ordered_placement = true ∧ e.done = false ∧ e.counter = m ∧
  (coordList e.n)[m]? = some e.current_loc ∧
  e.free_coords = (coordList e.n).drop (m + 1)

/-- Placeholder state used only as the default of Option.getD below. -/
def dummyEnv : ColorEnv :=
  { n := 0, num_colors := 0, maximize_red := false, ordered_placement := false,
    disable_checking := false, flatten := false, board := fun _ => 0,
    marker := fun _ => 0, free_coords := [], current_loc := (0, 0),
    counter := 0, done := false }

/-- Freshly constructed 2 x 2 environment with two colors, deterministic
placement, checking enabled, maximize_red off. -/
def freshEnv2 : ColorEnv := (initEnv 2 2 false true false false 0).getD dummyEnv

/-- State of freshEnv2 after the three raw actions 0, 1, 0: three cells
colored 1, 2, 1 in row-major order, one free cell left. -/
def e3c : ColorEnv := (runActs freshEnv2 [(0, 0), (1, 0), (0, 0)]).getD dummyEnv

/-- Terminal state of freshEnv2 after the four raw actions 0, 1, 0, 1:
the full board [[1,2],[1,2]]. -/
def termEnv2 : ColorEnv :=
  (runActs freshEnv2 [(0, 0), (1, 0), (0, 0), (1, 0)]).getD dummyEnv

/-- Freshly constructed 3 x 3 environment with three colors, deterministic
placement, checking enabled. -/
def freshEnv3 : ColorEnv := (initEnv 3 3 false true false false 0).getD dummyEnv

/-- Terminal state of freshEnv3 after nine valid actions laying down the
board [[1,2,3],[2,3,1],[1,1,2]]: cells (2,0) and (2,1) are row-adjacent
and both hold color 1. -/
def fullEnv3 : ColorEnv :=
  (runActs freshEnv3
    [(0, 0), (1, 0), (2, 0), (1, 0), (2, 0), (0, 0), (0, 0), (0, 0), (1, 0)]).getD
    dummyEnv

/-! Basic facts about the grid coordinate list and the layer operations. -/

theorem coordList_length (n : Nat) : (coordList n).length = n ^ 2 := by
  rw [coordList, List.length_product, List.length_range, pow_two]

theorem coordList_nodup (n : Nat) : (coordList n).Nodup :=
  (List.nodup_range n).product (List.nodup_range n)

theorem mem_coordList {n : Nat} {c : Nat × Nat} :
    c ∈ coordList n ↔ c.1 < n ∧ c.2 < n := by
  obtain ⟨i, j⟩ := c
  rw [coordList, List.mem_product, List.mem_range, List.mem_range]

theorem setCell_same (g : Nat × Nat → Nat) (c : Nat × Nat) (v : Nat) :
    setCell g c v c = v := by
  simp [setCell]

theorem setCell_other (g : Nat × Nat → Nat) (c : Nat × Nat) (v : Nat) {d : Nat × Nat}
    (h : d ≠ c) : setCell g c v d = g d := by
  simp [setCell, h]

theorem mem_of_getElem_some {α : Type} {l : List α} {i : Nat} {c : α}
    (h : l[i]? = some c) : c ∈ l := by
  obtain ⟨hlt, he⟩ := List.getElem?_eq_some.mp h
  exact he ▸ List.getElem_mem hlt

theorem not_mem_eraseIdx_of_nodup {α : Type} :
    ∀ (l : List α) (i : Nat) (c : α), l.Nodup → l[i]? = some c → c ∉ l.eraseIdx i := by
  intro l
  induction l with
  | nil => intro i c _ h; simp at h
  | cons x t ih =>
    intro i c hnd h
    obtain ⟨hx, ht⟩ := List.nodup_cons.mp hnd
    cases i with
    | zero =>
      simp only [List.getElem?_cons_zero, Option.some.injEq] at h
      rw [List.eraseIdx_cons_zero]
      exact h ▸ hx
    | succ i =>
      rw [List.eraseIdx_cons_succ]
      simp only [List.getElem?_cons_succ] at h
      intro hmem
      rcases List.mem_cons.mp hmem with rfl | hmem2
      · exact hx (mem_of_getElem_some h)
      · exact ih i c ht h hmem2

theorem num_nonzero_zero (n : Nat) : num_nonzero n (fun _ => 0) = 0 := by
  simp [num_nonzero]

theorem num_nonzero_le (n : Nat) (g : Nat × Nat → Nat) : num_nonzero n g ≤ n ^ 2 := by
  rw [← coordList_length n]
  exact List.length_filter_le _ _

theorem filter_length_flip {α : Type} (p q : α → Bool) (c : α) :
    ∀ (l : List α), l.Nodup → c ∈ l → (∀ d, d ≠ c → p d = q d) →
    p c = false → q c = true →
    (l.filter q).length = (l.filter p).length + 1 := by
  intro l
  induction l with
  | nil => intro _ hmem; cases hmem
  | cons x t ih =>
    intro hnd hmem hagree hp hq
    obtain ⟨hx, ht⟩ := List.nodup_cons.mp hnd
    rcases List.mem_cons.mp hmem with rfl | hmem2
    · have hft : t.filter q = t.filter p := by
        apply List.filter_congr
        intro d hd
        exact (hagree d (fun hdc => hx (hdc ▸ hd))).symm
      rw [List.filter_cons, List.filter_cons, hp, hq]
      simp [hft]
    · have hxc : x ≠ c := fun hxc => hx (hxc ▸ hmem2)
      have hpq : p x = q x := hagree x hxc
      rw [List.filter_cons, List.filter_cons, ← hpq]
      cases hpx : p x with
      | true => simp [ih ht hmem2 hagree hp hq]
      | false => simp [ih ht hmem2 hagree hp hq]

theorem num_nonzero_setCell {n : Nat} {g : Nat × Nat → Nat} {c : Nat × Nat} {v : Nat}
    (hc : c ∈ coordList n) (hg : g c = 0) (hv : v ≠ 0) :
    num_nonzero n (setCell g c v) = num_nonzero n g + 1 := by
  apply filter_length_flip (fun d => g d != 0) (fun d => setCell g c v d != 0) c
    (coordList n) (coordList_nodup n) hc
  · intro d hd
    rw [setCell_other g c v hd]
  · simp [hg]
  · simp [setCell_same, hv]

/-! Bookkeeping invariant of the environment, matching the design
invariants asserted (in commented-out form) by ColorEnv._check_rep and
stated in the spec: the counter counts the colored cells, the done flag
holds exactly when the grid is full, the pool holds uncolored in-grid
cells without duplicates and its size complements the counter, the
current target is an uncolored in-grid cell outside the pool, and the
marker layer is zero away from the current target (and everywhere once
done). -/
structure Inv (e : ColorEnv) : Prop where
  hn : 1 ≤ e.n
  hcount : e.counter = num_nonzero e.n e.board
  hdone : e.done = true ↔ e.counter = e.n ^ 2
  hpool_len : e.done = false → e.free_coords.length + e.counter + 1 = e.n ^ 2
  hpool_done : e.done = true → e.free_coords = []
  hpool_sub : ∀ c ∈ e.free_coords, c ∈ coordList e.n
  hpool_zero : ∀ c ∈ e.free_coords, e.board c = 0
  hpool_nodup : e.free_coords.Nodup
  hcur_mem : e.done = false → e.current_loc ∈ coordList e.n
  hcur_zero : e.done = false → e.board e.current_loc = 0
  hcur_pool : e.current_loc ∉ e.free_coords
  hmarker : ∀ c, c ≠ e.current_loc → e.marker c = 0
  hmarker_le : ∀ c, e.marker c ≤ 1
  hboard_le : ∀ c, e.board c ≤ e.num_colors
  hmarker_done : e.done = true → ∀ c, e.marker c = 0

/-! Soundness of the pool draws. -/

theorem first_location_sound {e : ColorEnv} {k : Nat} {e1 : ColorEnv}
    (h : first_location e k = some e1) :
    ∃ idx loc, (e.ordered_placement = true → idx = 0) ∧
      e.free_coords[idx]? = some loc ∧
      e1 = { e with current_loc := loc, free_coords := e.free_coords.eraseIdx idx } := by
  unfold first_location at h
  refine ⟨drawIdx e k, ?_⟩
  cases hm : e.free_coords[drawIdx e k]? with
  | none => rw [hm] at h; cases h
  | some loc =>
    rw [hm] at h
    refine ⟨loc, fun hop => by rw [drawIdx, hop]; rfl, rfl, ?_⟩
    exact (Option.some.inj h).symm

theorem get_next_location_sound {e : ColorEnv} {k : Nat} {e1 : ColorEnv}
    (h : get_next_location e k = some e1) :
    ∃ idx loc, (e.ordered_placement = true → idx = 0) ∧
      e.free_coords[idx]? = some loc ∧
      e1 = { e with marker := setCell (setCell e.marker e.current_loc 0) loc 1,
                    current_loc := loc,
                    free_coords := e.free_coords.eraseIdx idx } := by
  unfold get_next_location at h
  by_cases hlen : e.free_coords.length = 0
  · rw [if_pos hlen] at h; cases h
  · rw [if_neg hlen] at h
    refine ⟨drawIdx e k, ?_⟩
    cases hm : e.free_coords[drawIdx e k]? with
    | none => rw [hm] at h; cases h
    | some loc =>
      rw [hm] at h
      refine ⟨loc, fun hop => by rw [drawIdx, hop]; rfl, rfl, ?_⟩
      exact (Option.some.inj h).symm

theorem get_next_location_isSome {e : ColorEnv} {k : Nat}
    (h : e.free_coords.length ≠ 0) :
    (get_next_location e k).isSome = true := by
  unfold get_next_location
  rw [if_neg h]
  have hidx : drawIdx e k < e.free_coords.length := by
    rw [drawIdx]
    split
    · omega
    · exact Nat.mod_lt _ (Nat.pos_of_ne_zero h)
  rw [List.getElem?_eq_getElem hidx]
  rfl

/-! Branch equations for step, one per control path of ColorEnv.step. -/

theorem step_invalid {e : ColorEnv} {a : Int} (k : Nat)
    (h : a + 1 > (e.num_colors : Int) ∨ a + 1 ≤ 0) :
    step e a k = some (e, -1, e.done) := by
  simp only [step]
  rw [if_pos h]

theorem step_terminal {e : ColorEnv} {a : Int} (k : Nat)
    (h0 : 0 < a + 1) (h1 : a + 1 ≤ (e.num_colors : Int)) (hd : e.done = true) :
    step e a k = some (e, 0, e.done) := by
  have hcond : ¬(a + 1 > (e.num_colors : Int) ∨ a + 1 ≤ 0) := by omega
  simp only [step]
  rw [if_neg hcond, if_pos hd]

theorem step_final {e : ColorEnv} {a : Int} (k : Nat)
    (h0 : 0 < a + 1) (h1 : a + 1 ≤ (e.num_colors : Int)) (hd : e.done = false)
    (hfin : e.counter + 1 = e.n ^ 2) :
    step e a k = some
      ({ e with done := true,
                counter := e.counter + 1,
                board := setCell e.board e.current_loc (a + 1).toNat,
                marker := setCell e.marker e.current_loc 0 },
       if check_legal_board
            { e with done := true, counter := e.counter + 1,
                     board := setCell e.board e.current_loc (a + 1).toNat,
                     marker := setCell e.marker e.current_loc 0 }
         then 1 else if e.maximize_red then -100 else 0,
       true) := by
  have hcond : ¬(a + 1 > (e.num_colors : Int) ∨ a + 1 ≤ 0) := by omega
  have hd' : ¬(e.done = true) := by rw [hd]; exact Bool.false_ne_true
  simp only [step]
  rw [if_neg hcond, if_neg hd', if_pos hfin]

theorem step_mid {e : ColorEnv} {a : Int} {k : Nat} {e2 : ColorEnv}
    (h0 : 0 < a + 1) (h1 : a + 1 ≤ (e.num_colors : Int)) (hd : e.done = false)
    (hfin : e.counter + 1 ≠ e.n ^ 2)
    (hg : get_next_location
      { e with counter := e.counter + 1,
               board := setCell e.board e.current_loc (a + 1).toNat } k = some e2) :
    step e a k = some (e2, if e.maximize_red = true ∧ a + 1 = 1 then 1 else 0, e2.done) := by
  have hcond : ¬(a + 1 > (e.num_colors : Int) ∨ a + 1 ≤ 0) := by omega
  have hd' : ¬(e.done = true) := by rw [hd]; exact Bool.false_ne_true
  simp only [step]
  rw [if_neg hcond, if_neg hd', if_neg hfin, hg]

/-! Preservation of the invariant by each branch of step. -/

theorem inv_step_final {e : ColorEnv} {a : Int} (hI : Inv e) (hd : e.done = false)
    (h0 : 0 < a + 1) (h1 : a + 1 ≤ (e.num_colors : Int))
    (hfin : e.counter + 1 = e.n ^ 2) :
    Inv { e with done := true,
                 counter := e.counter + 1,
                 board := setCell e.board e.current_loc (a + 1).toNat,
                 marker := setCell e.marker e.current_loc 0 } := by
  have hcl := hI.hcur_mem hd
  have hb0 := hI.hcur_zero hd
  have hcne : (a + 1).toNat ≠ 0 := by omega
  have hcle : (a + 1).toNat ≤ e.num_colors := Int.toNat_le.mpr h1
  have hpool_nil : e.free_coords = [] := by
    have := hI.hpool_len hd
    exact List.eq_nil_of_length_eq_zero (by omega)
  refine
    { hn := hI.hn
      hcount := ?_
      hdone := by simp [hfin]
      hpool_len := fun hh => Bool.noConfusion hh
      hpool_done := fun _ => hpool_nil
      hpool_sub := hI.hpool_sub
      hpool_zero := ?_
      hpool_nodup := hI.hpool_nodup
      hcur_mem := fun hh => Bool.noConfusion hh
      hcur_zero := fun hh => Bool.noConfusion hh
      hcur_pool := hI.hcur_pool
      hmarker := ?_
      hmarker_le := ?_
      hboard_le := ?_
      hmarker_done := ?_ }
  · dsimp only
    rw [num_nonzero_setCell hcl hb0 hcne, ← hI.hcount]
  · intro c hc
    dsimp only at hc ⊢
    rw [setCell_other _ _ _ (ne_of_mem_of_not_mem hc hI.hcur_pool)]
    exact hI.hpool_zero c hc
  · intro c hne
    dsimp only at hne ⊢
    rw [setCell_other _ _ _ hne]
    exact hI.hmarker c hne
  · intro c
    dsimp only
    by_cases hc : c = e.current_loc
    · rw [hc, setCell_same]; omega
    · rw [setCell_other _ _ _ hc]; exact hI.hmarker_le c
  · intro c
    dsimp only
    by_cases hc : c = e.current_loc
    · rw [hc, setCell_same]; exact hcle
    · rw [setCell_other _ _ _ hc]; exact hI.hboard_le c
  · intro _ c
    dsimp only
    by_cases hc : c = e.current_loc
    · rw [hc, setCell_same]
    · rw [setCell_other _ _ _ hc]; exact hI.hmarker c hc

theorem inv_step_mid {e : ColorEnv} {a : Int} {idx : Nat} {loc : Nat × Nat}
    (hI : Inv e) (hd : e.done = false)
    (h0 : 0 < a + 1) (h1 : a + 1 ≤ (e.num_colors : Int))
    (hnfin : e.counter + 1 ≠ e.n ^ 2)
    (hidx : e.free_coords[idx]? = some loc) :
    Inv { e with counter := e.counter + 1,
                 board := setCell e.board e.current_loc (a + 1).toNat,
                 marker := setCell (setCell e.marker e.current_loc 0) loc 1,
                 current_loc := loc,
                 free_coords := e.free_coords.eraseIdx idx } := by
  have hcl := hI.hcur_mem hd
  have hb0 := hI.hcur_zero hd
  have hcne : (a + 1).toNat ≠ 0 := by omega
  have hcle : (a + 1).toNat ≤ e.num_colors := Int.toNat_le.mpr h1
  have hlen := hI.hpool_len hd
  have hidxlt : idx < e.free_coords.length := (List.getElem?_eq_some.mp hidx).1
  have hlocmem : loc ∈ e.free_coords := mem_of_getElem_some hidx
  have hloccoord : loc ∈ coordList e.n := hI.hpool_sub loc hlocmem
  have hloc0 : e.board loc = 0 := hI.hpool_zero loc hlocmem
  have hlocne : loc ≠ e.current_loc := ne_of_mem_of_not_mem hlocmem hI.hcur_pool
  have hsub : e.free_coords.eraseIdx idx ⊆ e.free_coords :=
    (List.eraseIdx_sublist e.free_coords idx).subset
  refine
    { hn := hI.hn
      hcount := ?_
      hdone := by simp [hd, hnfin]
      hpool_len := ?_
      hpool_done := by simp [hd]
      hpool_sub := fun c hc => hI.hpool_sub c (hsub hc)
      hpool_zero := ?_
      hpool_nodup := List.Nodup.sublist (List.eraseIdx_sublist _ _) hI.hpool_nodup
      hcur_mem := fun _ => hloccoord
      hcur_zero := fun _ => by dsimp only; rw [setCell_other _ _ _ hlocne]; exact hloc0
      hcur_pool := not_mem_eraseIdx_of_nodup _ idx loc hI.hpool_nodup hidx
      hmarker := ?_
      hmarker_le := ?_
      hboard_le := ?_
      hmarker_done := by simp [hd] }
  · dsimp only
    rw [num_nonzero_setCell hcl hb0 hcne, ← hI.hcount]
  · intro _
    dsimp only
    rw [List.length_eraseIdx, if_pos hidxlt]
    omega
  · intro c hc
    dsimp only at hc ⊢
    have hcmem := hsub hc
    rw [setCell_other _ _ _ (ne_of_mem_of_not_mem hcmem hI.hcur_pool)]
    exact hI.hpool_zero c hcmem
  · intro c hne
    dsimp only at hne ⊢
    rw [setCell_other _ _ _ hne]
    by_cases hcc : c = e.current_loc
    · rw [hcc, setCell_same]
    · rw [setCell_other _ _ _ hcc]; exact hI.hmarker c hcc
  · intro c
    dsimp only
    by_cases hcl2 : c = loc
    · rw [hcl2, setCell_same]
    · rw [setCell_other _ _ _ hcl2]
      by_cases hcc : c = e.current_loc
      · rw [hcc, setCell_same]; omega
      · rw [setCell_other _ _ _ hcc]; exact hI.hmarker_le c
  · intro c
    dsimp only
    by_cases hcc : c = e.current_loc
    · rw [hcc, setCell_same]; exact hcle
    · rw [setCell_other _ _ _ hcc]; exact hI.hboard_le c

/-- Any valid action taken in an unfinished state succeeds, preserves the
invariant, increments the counter and finishes exactly when the grid
becomes full. -/
theorem step_active {e : ColorEnv} {a : Int} (k : Nat) (hI : Inv e)
    (hd : e.done = false) (h0 : 0 < a + 1) (h1 : a + 1 ≤ (e.num_colors : Int)) :
    ∃ e1 r, step e a k = some (e1, r, e1.done) ∧ Inv e1 ∧
      e1.counter = e.counter + 1 ∧ e1.n = e.n ∧ e1.num_colors = e.num_colors ∧
      e1.ordered_placement = e.ordered_placement ∧ e1.maximize_red = e.maximize_red ∧
      e1.disable_checking = e.disable_checking ∧
      (e1.done = true ↔ e.counter + 1 = e.n ^ 2) := by
  by_cases hfin : e.counter + 1 = e.n ^ 2
  · exact ⟨_, _, step_final k h0 h1 hd hfin, inv_step_final hI hd h0 h1 hfin,
      rfl, rfl, rfl, rfl, rfl, rfl, by dsimp only; simp [hfin]⟩
  · have hlen0 : e.free_coords.length ≠ 0 := by
      have := hI.hpool_len hd
      omega
    have hsome := @get_next_location_isSome
      { e with counter := e.counter + 1,
               board := setCell e.board e.current_loc (a + 1).toNat } k hlen0
    obtain ⟨e2, hg⟩ := Option.isSome_iff_exists.mp hsome
    obtain ⟨idx, loc, hop, hidx, he2⟩ := get_next_location_sound hg
    refine ⟨e2, _, step_mid h0 h1 hd hfin hg, ?_, ?_, ?_, ?_, ?_, ?_, ?_, ?_⟩
    · rw [he2]
      exact inv_step_mid hI hd h0 h1 hfin hidx
    · rw [he2]
    · rw [he2]
    · rw [he2]
    · rw [he2]
    · rw [he2]
    · rw [he2]
    · rw [he2]
      dsimp only
      simp [hd, hfin]

/-- What construction produces: the invariant holds, the episode is fresh,
and the pool and current target come from one draw out of the full
row-major coordinate list (the head draw in ordered mode). -/
theorem initEnv_sound {n nc : Nat} {mr op dc fl : Bool} {k : Nat} {e : ColorEnv}
    (h : initEnv n nc mr op dc fl k = some e) :
    Inv e ∧ e.counter = 0 ∧ e.done = false ∧ e.n = n ∧ e.num_colors = nc ∧
    e.maximize_red = mr ∧ e.ordered_placement = op ∧ e.disable_checking = dc ∧
    e.marker e.current_loc = 1 ∧
    ∃ idx, (op = true → idx = 0) ∧ (coordList n)[idx]? = some e.current_loc ∧
      e.free_coords = (coordList n).eraseIdx idx := by
  unfold initEnv at h
  rw [Option.map_eq_some'] at h
  obtain ⟨e1, hfl, hfe⟩ := h
  obtain ⟨idx, loc, hop, hidx, he1⟩ := first_location_sound hfl
  subst he1
  subst hfe
  dsimp only at hidx ⊢
  have hidxlt : idx < (coordList n).length := (List.getElem?_eq_some.mp hidx).1
  have hn2 : 0 < n ^ 2 := by
    have := coordList_length n
    omega
  have hn1 : 1 ≤ n := by
    rcases Nat.eq_zero_or_pos n with h0 | h1
    · rw [h0] at hn2; simp at hn2
    · exact h1
  have hlocmem : loc ∈ coordList n := mem_of_getElem_some hidx
  have hlocnot : loc ∉ (coordList n).eraseIdx idx :=
    not_mem_eraseIdx_of_nodup _ idx loc (coordList_nodup n) hidx
  refine ⟨?_, rfl, rfl, rfl, rfl, rfl, rfl, rfl, setCell_same _ _ _,
    idx, hop, hidx, rfl⟩
  refine
    { hn := hn1
      hcount := (num_nonzero_zero n).symm
      hdone := by
        dsimp only
        exact ⟨fun hh => Bool.noConfusion hh,
          fun hh => absurd hh.symm (Nat.pos_iff_ne_zero.mp hn2)⟩
      hpool_len := ?_
      hpool_done := fun hh => Bool.noConfusion hh
      hpool_sub := fun c hc => (List.eraseIdx_sublist _ _).subset hc
      hpool_zero := fun _ _ => rfl
      hpool_nodup := List.Nodup.sublist (List.eraseIdx_sublist _ _) (coordList_nodup n)
      hcur_mem := fun _ => hlocmem
      hcur_zero := fun _ => rfl
      hcur_pool := hlocnot
      hmarker := ?_
      hmarker_le := ?_
      hboard_le := fun _ => Nat.zero_le _
      hmarker_done := fun hh => Bool.noConfusion hh }
  · intro _
    dsimp only
    rw [List.length_eraseIdx, if_pos hidxlt, coordList_length]
    rw [coordList_length] at hidxlt
    omega
  · intro c hne
    dsimp only at hne ⊢
    exact setCell_other _ _ _ hne
  · intro c
    dsimp only
    by_cases hc : c = loc
    · rw [hc, setCell_same]
    · rw [setCell_other _ _ _ hc]
      exact Nat.zero_le _

/-- What reset produces: the invariant holds, the episode is fresh, the
configuration is kept, the marker layer is identically zero (the source
never rewrites it on reset), and the pool and current target come from
one draw out of the full row-major coordinate list. -/
theorem reset_sound {e : ColorEnv} {k : Nat} {e1 : ColorEnv}
    (h : reset e k = some e1) :
    Inv e1 ∧ e1.counter = 0 ∧ e1.done = false ∧ e1.n = e.n ∧
    e1.num_colors = e.num_colors ∧ e1.maximize_red = e.maximize_red ∧
    e1.ordered_placement = e.ordered_placement ∧ e1.disable_checking = e.disable_checking ∧
    (∀ c, e1.marker c = 0) ∧
    ∃ idx, (e.ordered_placement = true → idx = 0) ∧
      (coordList e.n)[idx]? = some e1.current_loc ∧
      e1.free_coords = (coordList e.n).eraseIdx idx := by
  unfold reset new_free_coords at h
  obtain ⟨idx, loc, hop, hidx, he1⟩ := first_location_sound h
  subst he1
  dsimp only at hidx hop ⊢
  have hidxlt : idx < (coordList e.n).length := (List.getElem?_eq_some.mp hidx).1
  have hn2 : 0 < e.n ^ 2 := by
    have := coordList_length e.n
    omega
  have hn1 : 1 ≤ e.n := by
    rcases Nat.eq_zero_or_pos e.n with h0 | h1
    · rw [h0] at hn2; simp at hn2
    · exact h1
  have hlocmem : loc ∈ coordList e.n := mem_of_getElem_some hidx
  have hlocnot : loc ∉ (coordList e.n).eraseIdx idx :=
    not_mem_eraseIdx_of_nodup _ idx loc (coordList_nodup e.n) hidx
  refine ⟨?_, rfl, rfl, rfl, rfl, rfl, rfl, rfl, fun _ => rfl,
    idx, hop, hidx, rfl⟩
  refine
    { hn := hn1
      hcount := (num_nonzero_zero e.n).symm
      hdone := by
        dsimp only
        exact ⟨fun hh => Bool.noConfusion hh,
          fun hh => absurd hh.symm (Nat.pos_iff_ne_zero.mp hn2)⟩
      hpool_len := ?_
      hpool_done := fun hh => Bool.noConfusion hh
      hpool_sub := fun c hc => (List.eraseIdx_sublist _ _).subset hc
      hpool_zero := fun _ _ => rfl
      hpool_nodup := List.Nodup.sublist (List.eraseIdx_sublist _ _) (coordList_nodup e.n)
      hcur_mem := fun _ => hlocmem
      hcur_zero := fun _ => rfl
      hcur_pool := hlocnot
      hmarker := fun _ _ => rfl
      hmarker_le := fun _ => Nat.zero_le 1
      hboard_le := fun _ => Nat.zero_le _
      hmarker_done := fun _ _ => rfl }
  intro _
  dsimp only
  rw [List.length_eraseIdx, if_pos hidxlt, coordList_length]
  rw [coordList_length] at hidxlt
  omega

/-- Every branch of step preserves the invariant. -/
theorem step_inv {e : ColorEnv} {a : Int} {k : Nat} {e1 : ColorEnv} {r : Int} {d : Bool}
    (hI : Inv e) (h : step e a k = some (e1, r, d)) : Inv e1 := by
  by_cases hc : a + 1 > (e.num_colors : Int) ∨ a + 1 ≤ 0
  · rw [step_invalid k hc] at h
    cases h
    exact hI
  · have h0 : 0 < a + 1 := by omega
    have h1 : a + 1 ≤ (e.num_colors : Int) := by omega
    cases hdd : e.done with
    | true =>
      rw [step_terminal k h0 h1 hdd] at h
      cases h
      exact hI
    | false =>
      obtain ⟨e2, r2, heq, hI2, _⟩ := step_active k hI hdd h0 h1
      rw [heq] at h
      cases h
      exact hI2

/-- Every reachable state satisfies the invariant. -/
theorem reachable_inv {e : ColorEnv} (h : Reachable e) : Inv e := by
  induction h with
  | from_init n nc mr op dc fl k e hinit => exact (initEnv_sound hinit).1
  | from_step e a k e1 r d _ hstep ih => exact step_inv ih hstep
  | from_reset e k e1 _ hreset ih => exact (reset_sound hreset).1

/-- Running a list of actions from a reachable state only visits
reachable states. -/
theorem reachable_runActs (acts : List (Int × Nat)) :
    ∀ {e e1 : ColorEnv}, Reachable e → runActs e acts = some e1 → Reachable e1 := by
  induction acts with
  | nil =>
    intro e e1 hR h
    cases h
    exact hR
  | cons p rest ih =>
    intro e e1 hR h
    unfold runActs at h
    cases hs : step e p.1 p.2 with
    | none => rw [hs] at h; cases h
    | some t =>
      rw [hs] at h
      exact ih (Reachable.from_step e p.1 p.2 t.1 t.2.1 t.2.2 hR (by rw [hs])) h

/-- A fresh state (construction or reset) satisfies the invariant and has
a zero counter and a cleared done flag. -/
theorem fresh_facts {e : ColorEnv} (h : Fresh e) :
    Inv e ∧ e.counter = 0 ∧ e.done = false := by
  rcases h with ⟨n, nc, mr, op, dc, fl, k, hinit⟩ | ⟨e0, k, hreset⟩
  · obtain ⟨hI, hc, hd, _⟩ := initEnv_sound hinit
    exact ⟨hI, hc, hd⟩
  · obtain ⟨hI, hc, hd, _⟩ := reset_sound hreset
    exact ⟨hI, hc, hd⟩

/-- Running valid actions from an unfinished invariant state that has
room for all of them succeeds, preserves the invariant, advances the
counter by exactly the number of actions, and finishes exactly when the
grid becomes full. -/
theorem runActs_valid :
    ∀ (acts : List (Int × Nat)) (e : ColorEnv), Inv e → e.done = false →
      (∀ p ∈ acts, 0 < p.1 + 1 ∧ p.1 + 1 ≤ (e.num_colors : Int)) →
      e.counter + acts.length ≤ e.n ^ 2 →
      ∃ e1, runActs e acts = some e1 ∧ Inv e1 ∧
        e1.counter = e.counter + acts.length ∧ e1.n = e.n ∧
        e1.num_colors = e.num_colors ∧
        (e1.done = true ↔ e.counter + acts.length = e.n ^ 2) := by
  intro acts
  induction acts with
  | nil =>
    intro e hI hd _ _
    exact ⟨e, rfl, hI, rfl, rfl, rfl, by simpa using hI.hdone⟩
  | cons p rest ih =>
    intro e hI hd hval hle
    rw [List.length_cons] at hle
    have hv := hval p (List.mem_cons_self p rest)
    obtain ⟨e1, r, heq, hI1, hc1, hn1, hnc1, hord1, hmr1, hdc1, hdone1⟩ :=
      step_active p.2 hI hd hv.1 hv.2
    by_cases hrest : rest = []
    · subst hrest
      refine ⟨e1, ?_, hI1, ?_, hn1, hnc1, ?_⟩
      · unfold runActs
        rw [heq]
        rfl
      · rw [hc1, List.length_cons, List.length_nil]
      · rw [List.length_cons, List.length_nil, hdone1]
    · have hrlen : 1 ≤ rest.length := by
        cases rest with
        | nil => exact absurd rfl hrest
        | cons q t => simp
      have hd1 : e1.done = false := by
        by_cases hbd : e1.done = true
        · exfalso
          have := hdone1.mp hbd
          omega
        · exact Bool.eq_false_iff.mpr hbd
      have hval1 : ∀ q ∈ rest, 0 < q.1 + 1 ∧ q.1 + 1 ≤ (e1.num_colors : Int) := by
        intro q hq
        rw [hnc1]
        exact hval q (List.mem_cons_of_mem p hq)
      have hle1 : e1.counter + rest.length ≤ e1.n ^ 2 := by
        rw [hc1, hn1]
        omega
      obtain ⟨e2, hrun, hI2, hc2, hn2, hnc2, hdone2⟩ := ih e1 hI1 hd1 hval1 hle1
      refine ⟨e2, ?_, hI2, ?_, ?_, ?_, ?_⟩
      · unfold runActs
        rw [heq]
        exact hrun
      · rw [List.length_cons, hc2, hc1]
        omega
      · rw [hn2, hn1]
      · rw [hnc2, hnc1]
      · rw [List.length_cons, hdone2, hc1, hn1]
        omega

/-- Running valid actions through an ordered-mode episode visits the
row-major coordinates one after the other: starting at position m with
exactly enough actions to fill the grid, the recorded targets are the
row-major coordinates from position m on. -/
theorem runTrace_ordered :
    ∀ (acts : List (Int × Nat)) (e : ColorEnv) (m : Nat), OrderedAt e m →
      (∀ p ∈ acts, 0 < p.1 + 1 ∧ p.1 + 1 ≤ (e.num_colors : Int)) →
      m + acts.length = e.n ^ 2 →
      runTrace e acts = some ((coordList e.n).drop m) := by
  intro acts
  induction acts with
  | nil =>
    intro e m hO hval hlen
    rw [List.length_nil] at hlen
    have hm : m = (coordList e.n).length := by
      rw [coordList_length]
      omega
    unfold runTrace
    rw [hm, List.drop_length]
  | cons p rest ih =>
    intro e m hO hval hlen
    obtain ⟨hop, hd, hc, hcur, hfree⟩ := hO
    rw [List.length_cons] at hlen
    have hmlt : m < (coordList e.n).length := by
      rw [coordList_length]
      omega
    have hcurm : (coordList e.n)[m] = e.current_loc := by
      rw [List.getElem?_eq_getElem hmlt] at hcur
      exact Option.some.inj hcur
    have hv := hval p (List.mem_cons_self p rest)
    by_cases hrest : rest = []
    · subst hrest
      have hfin : e.counter + 1 = e.n ^ 2 := by
        rw [List.length_nil] at hlen
        omega
      unfold runTrace
      rw [step_final p.2 hv.1 hv.2 hd hfin]
      dsimp only
      unfold runTrace
      rw [Option.map_some']
      have hdropnil : (coordList e.n).drop (m + 1) = [] := by
        have : (coordList e.n).length ≤ m + 1 := by
          rw [coordList_length]
          omega
        rw [← List.drop_length (coordList e.n)]
        congr 1
        rw [coordList_length]
        omega
      rw [List.drop_eq_getElem_cons hmlt, hdropnil, hcurm]
    · have hrlen : 1 ≤ rest.length := by
        cases rest with
        | nil => exact absurd rfl hrest
        | cons q t => simp
      have hnfin : e.counter + 1 ≠ e.n ^ 2 := by omega
      have hm1lt : m + 1 < (coordList e.n).length := by
        rw [coordList_length]
        omega
      have hlen_pool :
          (ColorEnv.free_coords
            { e with counter := e.counter + 1,
                     board := setCell e.board e.current_loc (p.1 + 1).toNat }).length ≠ 0 := by
        dsimp only
        rw [hfree, List.length_drop, coordList_length]
        omega
      obtain ⟨e2, hg⟩ :=
        Option.isSome_iff_exists.mp (get_next_location_isSome hlen_pool)
      obtain ⟨idx, loc, hidx0, hidx, he2⟩ := get_next_location_sound hg
      have hidxz : idx = 0 := hidx0 hop
      subst hidxz
      dsimp only at hidx he2
      have hpool0 : e.free_coords[0]? = some ((coordList e.n)[m + 1]) := by
        rw [hfree, List.getElem?_drop]
        exact List.getElem?_eq_getElem hm1lt
      rw [hpool0] at hidx
      have hloc : loc = (coordList e.n)[m + 1] := (Option.some.inj hidx).symm
      subst hloc
      subst he2
      have hO2 : OrderedAt
          { e with counter := e.counter + 1,
                   board := setCell e.board e.current_loc (p.1 + 1).toNat,
                   marker := setCell (setCell e.marker e.current_loc 0)
                     ((coordList e.n)[m + 1]) 1,
                   current_loc := (coordList e.n)[m + 1],
                   free_coords := e.free_coords.eraseIdx 0 }
          (m + 1) := by
        refine ⟨hop, hd, by dsimp only; omega, ?_, ?_⟩
        · dsimp only
          exact List.getElem?_eq_getElem hm1lt
        · dsimp only
          rw [List.eraseIdx_zero, hfree, List.tail_drop]
      have hval2 : ∀ q ∈ rest, 0 < q.1 + 1 ∧ q.1 + 1 ≤
          ((ColorEnv.num_colors
            { e with counter := e.counter + 1,
                     board := setCell e.board e.current_loc (p.1 + 1).toNat,
                     marker := setCell (setCell e.marker e.current_loc 0)
                       ((coordList e.n)[m + 1]) 1,
                     current_loc := (coordList e.n)[m + 1],
                     free_coords := e.free_coords.eraseIdx 0 }) : Int) := by
        intro q hq
        exact hval q (List.mem_cons_of_mem p hq)
      have htr := ih _ (m + 1) hO2 hval2 (by dsimp only; omega)
      unfold runTrace
      rw [step_mid hv.1 hv.2 hd hnfin hg]
      dsimp only
      rw [htr, Option.map_some']
      dsimp only
      rw [List.drop_eq_getElem_cons hmlt, hcurm]

/-! Claim theorems. -/

/-- Claim C1: the spec says that after every reset() the state satisfies
the not-terminal invariant with exactly one placement-marker cell set to
1, so the returned observation holds exactly one 1 in its marker layer.
The code violates this: ColorEnv.reset never rewrites the marker layer
(only __init__ line 57 does), so the observation reset returns has zero
ones in the marker layer - shown here on the freshly constructed 2 x 2
environment, whose marker layer held exactly one 1 before the reset and
none after it, although the episode is active again. -/
theorem claim1_reset_loses_marker :
    num_nonzero freshEnv2.n freshEnv2.marker = 1 ∧
    (reset freshEnv2 0).map (fun s => (num_nonzero s.n s.marker, s.done)) =
      some (0, false) := by
  constructor
  · decide
  · decide

/-- Claim C2: the spec says the right/below scan plus the bottom-right
corner check examine every 4-adjacent pair, so _check_legal_board is
false iff two adjacent cells match.  The code violates this for n = 3: a
reachable, fully colored board (colors in [1,3]) whose row-adjacent cells
(2,0) and (2,1) both hold color 1 still passes the check, because the
scan skips the adjacent pairs inside the last row and column that do not
touch the bottom-right corner. -/
theorem claim2_legality_scan_misses_pairs :
    runActs freshEnv3
        [(0, 0), (1, 0), (2, 0), (1, 0), (2, 0), (0, 0), (0, 0), (0, 0), (1, 0)] =
      some fullEnv3 ∧
    fullEnv3.done = true ∧
    fullEnv3.disable_checking = false ∧
    ((coordList 3).all fun c =>
      decide (1 ≤ fullEnv3.board c) && decide (fullEnv3.board c ≤ 3)) = true ∧
    specHasAdjacentSamePair 3 fullEnv3.board = true ∧
    check_legal_board fullEnv3 = true :=
  ⟨rfl, by decide, by decide, by decide, by decide, by decide⟩

/-- Claim C3 counterexample: in the terminal state reached by a full
2 x 2 episode, the out-of-range raw action 2 (with num_colors = 2)
returns reward -1, not the reward 0 the claim asserts for every raw
action taken while the terminal flag is true: the range check of step
runs before its terminal check. -/
theorem claim3_counterexample :
    runActs freshEnv2 [(0, 0), (1, 0), (0, 0), (1, 0)] = some termEnv2 ∧
    termEnv2.done = true ∧
    (step termEnv2 2 0).map (fun x => (x.2.1, x.2.2)) = some (-1, true) ∧
    (step termEnv2 2 0).map (fun x => x.2.1) ≠ some 0 :=
  ⟨rfl, by decide, by decide, by decide⟩

/-- Claim C3 (amended): while the terminal flag is true, a step with an
in-range raw action (in [0, num_colors-1]) leaves the entire state
unchanged and returns the current observation with reward 0 and
terminal = true; an out-of-range raw action also leaves the state
unchanged but returns reward -1. -/
theorem claim3_terminal_step_noop (e : ColorEnv) (a : Int) (k : Nat)
    (hd : e.done = true) :
    (0 < a + 1 → a + 1 ≤ (e.num_colors : Int) → step e a k = some (e, 0, true)) ∧
    (a + 1 > (e.num_colors : Int) ∨ a + 1 ≤ 0 → step e a k = some (e, -1, true)) := by
  constructor
  · intro h0 h1
    rw [step_terminal k h0 h1 hd, hd]
  · intro hbad
    rw [step_invalid k hbad, hd]

/-- Witness for claim3_terminal_step_noop at the concrete terminal state
termEnv2, with the in-range raw action 0 and the out-of-range raw
action 2. -/
theorem claim3_witness :
    step termEnv2 0 0 = some (termEnv2, 0, true) ∧
    step termEnv2 2 0 = some (termEnv2, -1, true) :=
  ⟨(claim3_terminal_step_noop termEnv2 0 0 rfl).1 (by decide) (by decide),
   (claim3_terminal_step_noop termEnv2 2 0 rfl).2 (by decide)⟩

/-- Claim C4: from any reachable state, a raw action outside
[0, num_colors-1] (that is, whose shifted action lies outside
[1, num_colors]) leaves the whole state - counter, board, marker, current
target, pool and terminal flag - unchanged and returns reward -1 with the
terminal flag as it was. -/
theorem claim4_invalid_action_noop (e : ColorEnv) (hR : Reachable e)
    (a : Int) (k : Nat) (h : a + 1 > (e.num_colors : Int) ∨ a + 1 ≤ 0) :
    step e a k = some (e, -1, e.done) :=
  step_invalid k h

/-- Witness for claim4_invalid_action_noop: the raw action 5 on the
freshly constructed 2 x 2 environment. -/
theorem claim4_witness :
    step freshEnv2 5 0 = some (freshEnv2, -1, freshEnv2.done) :=
  claim4_invalid_action_noop freshEnv2
    (Reachable.from_init 2 2 false true false false 0 freshEnv2 rfl) 5 0 (by decide)

/-- Claim C5: with ordered placement, from construction or from reset,
any full episode of n^2 valid actions visits the current-target
coordinates exactly in the row-major order (0,0), (0,1), ..., (n-1,n-1),
whatever colors the actions place. -/
theorem claim5_ordered_targets_row_major (e : ColorEnv) (hF : FreshOrdered e)
    (acts : List (Int × Nat))
    (hval : ∀ p ∈ acts, 0 < p.1 + 1 ∧ p.1 + 1 ≤ (e.num_colors : Int))
    (hlen : acts.length = e.n ^ 2) :
    runTrace e acts = some (coordList e.n) := by
  obtain ⟨hfresh, hop⟩ := hF
  have hO : OrderedAt e 0 := by
    rcases hfresh with ⟨n, nc, mr, op, dc, fl, k, hinit⟩ | ⟨e0, k, hreset⟩
    · obtain ⟨hI, hc, hd, hn, hncs, hmr, hopf, hdc, hm1, idx, hidx0, hcur, hfree⟩ :=
        initEnv_sound hinit
      have hidxz : idx = 0 := hidx0 (by rw [← hopf]; exact hop)
      subst hidxz
      subst hn
      refine ⟨hop, hd, hc, hcur, ?_⟩
      rw [hfree, List.eraseIdx_zero, Nat.zero_add, List.drop_one]
    · obtain ⟨hI, hc, hd, hn, hncs, hmr, hopf, hdc, hm0, idx, hidx0, hcur, hfree⟩ :=
        reset_sound hreset
      have hidxz : idx = 0 := hidx0 (by rw [← hopf]; exact hop)
      subst hidxz
      refine ⟨hop, hd, hc, ?_, ?_⟩
      · rw [hn]; exact hcur
      · rw [hn, hfree, List.eraseIdx_zero, Nat.zero_add, List.drop_one]
  have h := runTrace_ordered acts e 0 hO hval (by omega)
  rw [h, List.drop_zero]

/-- Witness for claim5_ordered_targets_row_major: playing color 1 four
times on the fresh 2 x 2 ordered environment visits (0,0), (0,1), (1,0),
(1,1) in that order. -/
theorem claim5_witness :
    runTrace freshEnv2 [(0, 0), (0, 0), (0, 0), (0, 0)] =
      some [(0, 0), (0, 1), (1, 0), (1, 1)] :=
  claim5_ordered_targets_row_major freshEnv2
    ⟨Or.inl ⟨2, 2, false, true, false, false, 0, rfl⟩, rfl⟩
    [(0, 0), (0, 0), (0, 0), (0, 0)] (by decide) (by decide)

/-- Claim C6: in every state reachable from construction or reset through
any sequence of step calls, the placement counter equals the number of
nonzero board cells, and (being a natural number) lies between 0 and
n^2. -/
theorem claim6_counter_counts_cells (e : ColorEnv) (hR : Reachable e) :
    e.counter = num_nonzero e.n e.board ∧ e.counter ≤ e.n ^ 2 := by
  have hI := reachable_inv hR
  exact ⟨hI.hcount, hI.hcount ▸ num_nonzero_le e.n e.board⟩

/-- Witness for claim6_counter_counts_cells at the reachable mid-episode
state e3c (three cells colored out of four). -/
theorem claim6_witness :
    e3c.counter = num_nonzero e3c.n e3c.board ∧ e3c.counter ≤ e3c.n ^ 2 :=
  claim6_counter_counts_cells e3c
    (reachable_runActs [(0, 0), (1, 0), (0, 0)]
      (Reachable.from_init 2 2 false true false false 0 freshEnv2 rfl) rfl)

/-- Claim C7: from a fresh (constructed or reset) environment, running a
sequence of n^2 valid raw actions leaves the terminal flag false after
each of the first n^2 - 1 steps and sets it exactly at the n^2-th; and in
every reachable state the terminal flag is true iff the counter equals
n^2. -/
theorem claim7_terminal_exactly_at_full (e : ColorEnv) (hF : Fresh e)
    (acts : List (Int × Nat))
    (hval : ∀ p ∈ acts, 0 < p.1 + 1 ∧ p.1 + 1 ≤ (e.num_colors : Int))
    (hlen : acts.length = e.n ^ 2) :
    (∀ i, i ≤ e.n ^ 2 →
      (runActs e (acts.take i)).map (fun s => s.done) =
        some (decide (i = e.n ^ 2))) ∧
    (∀ e1, Reachable e1 → (e1.done = true ↔ e1.counter = e1.n ^ 2)) := by
  obtain ⟨hI, hc, hd⟩ := fresh_facts hF
  constructor
  · intro i hi
    have hvali : ∀ p ∈ acts.take i, 0 < p.1 + 1 ∧ p.1 + 1 ≤ (e.num_colors : Int) :=
      fun p hp => hval p (List.take_subset i acts hp)
    have hleni : (acts.take i).length = i := by
      rw [List.length_take, hlen]
      exact min_eq_left hi
    obtain ⟨e1, hrun, hI1, hc1, hn1, _, hdone1⟩ :=
      runActs_valid (acts.take i) e hI hd hvali (by omega)
    rw [hrun, Option.map_some']
    congr 1
    rw [hc, hleni] at hdone1
    cases hdec : decide (i = e.n ^ 2) with
    | true =>
      exact hdone1.mpr (by have := of_decide_eq_true hdec; omega)
    | false =>
      have hne := of_decide_eq_false hdec
      cases hb : e1.done with
      | false => rfl
      | true =>
        exfalso
        exact hne (by have := hdone1.mp hb; omega)
  · intro e1 hR1
    exact (reachable_inv hR1).hdone

/-- Witness for claim7_terminal_exactly_at_full on the fresh 2 x 2
environment playing color 1 four times: not terminal after three steps,
terminal after the fourth. -/
theorem claim7_witness :
    (runActs freshEnv2 ([((0 : Int), 0), (0, 0), (0, 0), (0, 0)].take 3)).map
        (fun s => s.done) = some false ∧
    (runActs freshEnv2 ([((0 : Int), 0), (0, 0), (0, 0), (0, 0)].take 4)).map
        (fun s => s.done) = some true := by
  have h := claim7_terminal_exactly_at_full freshEnv2
    (Or.inl ⟨2, 2, false, true, false, false, 0, rfl⟩)
    [((0 : Int), 0), (0, 0), (0, 0), (0, 0)] (by decide) (by decide)
  exact ⟨h.1 3 (by decide), h.1 4 (by decide)⟩

/-- Claim C8: a valid action that fills the n^2-th cell ends the episode:
the returned and stored terminal flags are true, the placement marker is
cleared to all zeros, and the reward is 1 when the completed board passes
the legality check (overriding any per-step maximize-red reward),
otherwise -100 when maximize_red is on, else 0. -/
theorem claim8_final_step_reward (e : ColorEnv) (hR : Reachable e)
    (hd : e.done = false) (hfin : e.counter + 1 = e.n ^ 2) (a : Int) (k : Nat)
    (h0 : 0 < a + 1) (h1 : a + 1 ≤ (e.num_colors : Int)) :
    (step e a k).isSome = true ∧
    ∀ e1 r d, step e a k = some (e1, r, d) →
      d = true ∧ e1.done = true ∧ (∀ c, e1.marker c = 0) ∧
      r = (if check_legal_board e1 = true then 1
           else if e.maximize_red = true then -100 else 0) := by
  have hI := reachable_inv hR
  have heq := step_final k h0 h1 hd hfin
  constructor
  · rw [heq]
    rfl
  · intro e1 r d h
    rw [heq] at h
    have h' := Option.some.inj h
    rw [Prod.mk.injEq, Prod.mk.injEq] at h'
    obtain ⟨he1, hr, hdq⟩ := h'
    subst he1
    subst hr
    subst hdq
    refine ⟨rfl, rfl, ?_, rfl⟩
    intro c
    dsimp only
    by_cases hcc : c = e.current_loc
    · rw [hcc, setCell_same]
    · rw [setCell_other _ _ _ hcc]
      exact hI.hmarker c hcc

/-- Witness for claim8_final_step_reward at the reachable state e3c with
one open cell, finishing with color 2 into the board [[1,2],[1,2]]. -/
theorem claim8_witness :
    (step e3c 1 0).isSome = true ∧
    ∀ e1 r d, step e3c 1 0 = some (e1, r, d) →
      d = true ∧ e1.done = true ∧ (∀ c, e1.marker c = 0) ∧
      r = (if check_legal_board e1 = true then 1
           else if e3c.maximize_red = true then -100 else 0) :=
  claim8_final_step_reward e3c
    (reachable_runActs [(0, 0), (1, 0), (0, 0)]
      (Reachable.from_init 2 2 false true false false 0 freshEnv2 rfl) rfl)
    rfl (by decide) 1 0 (by decide) (by decide)

/-- Claim C9: on reachable states the internal assertion of
_get_next_location never fails: the free pool is nonempty whenever a
valid placement leaves the counter below n^2, so step always returns a
result (isSome) for every raw action and every draw oracle. -/
theorem claim9_pool_never_exhausted (e : ColorEnv) (hR : Reachable e)
    (a : Int) (k : Nat) : (step e a k).isSome = true := by
  have hI := reachable_inv hR
  by_cases hbad : a + 1 > (e.num_colors : Int) ∨ a + 1 ≤ 0
  · rw [step_invalid k hbad]
    rfl
  · have h0 : 0 < a + 1 := by omega
    have h1 : a + 1 ≤ (e.num_colors : Int) := by omega
    cases hd : e.done with
    | true =>
      rw [step_terminal k h0 h1 hd]
      rfl
    | false =>
      obtain ⟨e1, r, heq, _⟩ := step_active k hI hd h0 h1
      rw [heq]
      rfl

/-- Witness for claim9_pool_never_exhausted on the freshly constructed
2 x 2 environment. -/
theorem claim9_witness : (step freshEnv2 0 0).isSome = true :=
  claim9_pool_never_exhausted freshEnv2
    (Reachable.from_init 2 2 false true false false 0 freshEnv2 rfl) 0 0

/-- Claim C10: in every reachable state - hence in every observation step
or reset returns - board entries are at most num_colors, marker entries
are at most 1, and so for num_colors ≥ 1 every entry of the observation
is at most num_colors: the declared observation-space upper bound
num_colors + 1 is never attained. -/
theorem claim10_observation_bounded (e : ColorEnv) (hR : Reachable e)
    (hnc : 1 ≤ e.num_colors) :
    (∀ c, e.board c ≤ e.num_colors) ∧ (∀ c, e.marker c ≤ 1) ∧
    (∀ v ∈ obsEntries e, v ≤ e.num_colors) ∧
    (∀ v ∈ obsEntries e, v < e.num_colors + 1) := by
  have hI := reachable_inv hR
  have hobs : ∀ v ∈ obsEntries e, v ≤ e.num_colors := by
    intro v hv
    unfold obsEntries at hv
    rw [List.mem_flatMap] at hv
    obtain ⟨c, _, hvc⟩ := hv
    rcases List.mem_cons.mp hvc with rfl | hvc2
    · exact hI.hboard_le c
    · rcases List.mem_cons.mp hvc2 with rfl | hvc3
      · have := hI.hmarker_le c
        omega
      · cases hvc3
  refine ⟨hI.hboard_le, hI.hmarker_le, hobs, ?_⟩
  intro v hv
  have := hobs v hv
  omega

/-- Witness for claim10_observation_bounded on the freshly constructed
2 x 2 environment. -/
theorem claim10_witness :
    (∀ c, freshEnv2.board c ≤ freshEnv2.num_colors) ∧
    (∀ c, freshEnv2.marker c ≤ 1) ∧
    (∀ v ∈ obsEntries freshEnv2, v ≤ freshEnv2.num_colors) ∧
    (∀ v ∈ obsEntries freshEnv2, v < freshEnv2.num_colors + 1) :=
  claim10_observation_bounded freshEnv2
    (Reachable.from_init 2 2 false true false false 0 freshEnv2 rfl) (by decide)

end ColorEnvSpec
